import Mathlib

/-!
Verification of the powerbot schedule watcher (powerbot.go, JSON-API variant).

Strings are modelled at rune level as `List Char` (Go's regexp and the string
functions used here operate on runes / whole-rune literals, and UTF-8 preserves
code-point order, so byte-level and rune-level views agree for every operation
modelled below).  Go `int` is modelled as `Int` (all values involved are tiny).
The stdlib collaborators are modelled at their interface: `encoding/json`
marshalling as a JSON value tree (struct fields in declaration order, map keys
sorted ascending), and the file system as an association list from path to
stored document, with `os.WriteFile` / `os.Rename` as operations on it.
-/

abbrev Str := List Char

/-! Constants from the `const` block of powerbot.go (second, canonical variant). -/

def groupWater : Str := "Група 4.1".data

def groupPower : Str := "Група 6.1".data

def labelWater : Str := "*💧 води не буде*".data

def labelPower : Str := "*💡 світла не буде*".data

/-- Section header phrase used by `extractSection`. -/
def headerPhrase : Str := "Графік погодинних відключень на".data

/-- Literal marker meaning "power is present", tested by `normalizeText`. -/
def markerPhrase : Str := "Електроенергія є".data

/-- Replacement text produced by `normalizeText` when the marker is present. -/
def noOutageText : Str := "буде!!!!".data

/-- The "no data" marker used by `formatLine`. -/
def noDataText : Str := "н/д".data

def sepColon : Str := ": ".data

def schedTitlePre : Str := "графік на ".data

def updWorsePre : Str := "upd. 😩 на ".data

def updBetterPre : Str := "upd. 🍾 на ".data

def bTagOpen : Str := "<b>".data

def bTagClose : Str := "</b>".data

def tmpSuffix : Str := ".tmp".data

def keyText : Str := "text".data

def keyMinutes : Str := "minutes".data

def keyDate : Str := "date".data

def keyGroups : Str := "groups".data

def keyDays : Str := "days".data

def zeroDM : Str := "01.01".data

/-! Character classes. -/

/-- Go regexp Perl class `\s`, i.e. `[\t\n\f\r ]`. -/
def isRexSpace (c : Char) : Bool :=
  c = ' ' || c = '\t' || c = '\n' || c.toNat = 0xc || c = '\r'

/-- `unicode.IsSpace`, the class used by `strings.TrimSpace`. -/
def isGoSpace (c : Char) : Bool :=
  let n := c.toNat
  n = 0x20 || (0x9 ≤ n && n ≤ 0xd) || n = 0x85 || n = 0xa0 || n = 0x1680 ||
    (0x2000 ≤ n && n ≤ 0x200a) || n = 0x2028 || n = 0x2029 || n = 0x202f ||
    n = 0x205f || n = 0x3000

/-- Go regexp class `\d`, ASCII digits only. -/
def isDig (c : Char) : Bool := 0x30 ≤ c.toNat && c.toNat ≤ 0x39

/-! Data model: `GroupInfo`, `DayInfo`, `State` from powerbot.go.  A Go
`map[string]GroupInfo` is modelled as an association list with unique keys. -/

structure GroupInfo where
  text : Str
  minutes : Int
deriving DecidableEq

structure DayInfo where
  date : Str
  groups : List (Str × GroupInfo)
deriving DecidableEq

structure State where
  days : List DayInfo
deriving DecidableEq

/-- Go map lookup `day.Groups[g]` on the association-list model. -/
def glookup (g : Str) : List (Str × GroupInfo) → Option GroupInfo
  | [] => none
  | (k, v) :: rest => if k = g then some v else glookup g rest

/-- The zero value of `GroupInfo`, produced by a failed Go map lookup. -/
def defaultGI : GroupInfo := ⟨[], 0⟩

/-! Calendar dates.  `main` builds `time.Time` values for today and tomorrow;
only their calendar date matters to the functions below, so a reference date is
modelled as a year/month/day triple.  `AddDate(0, 0, -1)` on a normalized date
is the previous calendar day in the proleptic Gregorian calendar, which Go's
`time` package uses. -/

structure GoDate where
  year : Nat
  month : Nat
  day : Nat
deriving DecidableEq

def isLeapYear (y : Nat) : Bool := (y % 4 = 0 && y % 100 ≠ 0) || y % 400 = 0

def daysInMonth (y m : Nat) : Nat :=
  if m = 2 then (if isLeapYear y then 29 else 28)
  else if m = 4 || m = 6 || m = 9 || m = 11 then 30
  else 31

/-- `d.AddDate(0, 0, -1)` for a valid calendar date. -/
def prevDay (d : GoDate) : GoDate :=
  if 1 < d.day then ⟨d.year, d.month, d.day - 1⟩
  else if 1 < d.month then ⟨d.year, d.month - 1, daysInMonth d.year (d.month - 1)⟩
  else ⟨d.year - 1, 12, 31⟩

def digCh (n : Nat) : Char := Char.ofNat (48 + n)

def digitsAux : Nat → Nat → Str
  | 0, _ => []
  | fuel + 1, n => if n < 10 then [digCh n] else digitsAux fuel (n / 10) ++ [digCh (n % 10)]

def natDigits (n : Nat) : Str := digitsAux (n + 1) n

/-- Zero-padded decimal, as produced by `time.Time.Format` verbs. -/
def padNum (w n : Nat) : Str :=
  let d := natDigits n
  List.replicate (w - d.length) '0' ++ d

/-- `d.Format("2006-01-02")`. -/
def fmtISO (d : GoDate) : Str :=
  padNum 4 d.year ++ ['-'] ++ padNum 2 d.month ++ ['-'] ++ padNum 2 d.day

/-- `d.Format("02.01.2006")`. -/
def fmtTitle (d : GoDate) : Str :=
  padNum 2 d.day ++ ['.'] ++ padNum 2 d.month ++ ['.'] ++ padNum 4 d.year

/-! String helpers mirroring the `strings` package calls in normalizeText. -/

def hasPre : Str → Str → Bool
  | [], _ => true
  | _ :: _, [] => false
  | p :: ps, c :: cs => if c = p then hasPre ps cs else false

/-- `strings.Contains s pat` (scan every suffix for the pattern as a prefix). -/
def containsS (pat : Str) : Str → Bool
  | [] => hasPre pat []
  | c :: t => hasPre pat (c :: t) || containsS pat t

/-- `strings.TrimSpace`. -/
def trimSpaceGo (l : Str) : Str :=
  ((l.dropWhile isGoSpace).reverse.dropWhile isGoSpace).reverse

/-- `strings.TrimPrefix(s, "—")` (the em dash is a single rune). -/
def stripLeadingDash (l : Str) : Str :=
  match l with
  | '—' :: t => t
  | _ => l

/-- `strings.ReplaceAll(s, " ", " ")`: a one-rune to one-rune replacement. -/
def nbspToSpace (c : Char) : Char := if c.toNat = 0xa0 then ' ' else c

/-- `strings.ReplaceAll(s, "  ", " ")`: left-to-right, non-overlapping. -/
def collapse : Str → Str
  | [] => []
  | [c] => [c]
  | c1 :: c2 :: rest =>
    if c1 = ' ' ∧ c2 = ' ' then ' ' :: collapse rest
    else c1 :: collapse (c2 :: rest)

/-- `strings.TrimSuffix(s, ".")`. -/
def trimSuffixDot (l : Str) : Str :=
  if l.getLast? = some '.' then l.dropLast else l

/-- `normalizeText` from powerbot.go (canonical variant). -/
def normalizeText (s : Str) : Str :=
  let s1 := trimSpaceGo s
  let s2 := stripLeadingDash s1
  let s3 := trimSpaceGo s2
  let s4 := s3.map nbspToSpace
  let s5 := collapse s4
  if containsS markerPhrase s5 then noOutageText else trimSuffixDot s5

/-! The regex `з\s+(\d{2}):(\d{2})\s+до\s+(\d{2}):(\d{2})` of `outageMinutes`,
as a deterministic scanner.  Every `\s+` is followed by a non-space literal and
every `\d{2}` by a non-digit literal (or the end of the pattern), so maximal
munch coincides with the backtracking semantics, and the leftmost match is
found by trying each start position left to right. -/

def matchLit : Str → Str → Option Str
  | [], s => some s
  | _ :: _, [] => none
  | p :: ps, c :: cs => if c = p then matchLit ps cs else none

/-- `\s+` (at least one regexp space, then maximal munch). -/
def reqSpaces1 : Str → Option Str
  | [] => none
  | c :: t => if isRexSpace c then some (t.dropWhile isRexSpace) else none

/-- `(\d{2})`: exactly two ASCII digits, returning their value. -/
def digit2 : Str → Option (Nat × Str)
  | c1 :: c2 :: t =>
    if isDig c1 && isDig c2 then some ((c1.toNat - 48) * 10 + (c2.toNat - 48), t) else none
  | _ => none

def litZ : Str := ['з']

def litDo : Str := ['д', 'о']

def litColon : Str := [':']

/-- Match the whole outage-window pattern at the start of `s`. -/
def rexMatchAt (s : Str) : Option (Nat × Nat × Nat × Nat) := do
  let s ← matchLit litZ s
  let s ← reqSpaces1 s
  let (h1, s) ← digit2 s
  let s ← matchLit litColon s
  let (m1, s) ← digit2 s
  let s ← reqSpaces1 s
  let s ← matchLit litDo s
  let s ← reqSpaces1 s
  let (h2, s) ← digit2 s
  let s ← matchLit litColon s
  let (m2, _) ← digit2 s
  pure (h1, m1, h2, m2)

/-- `FindStringSubmatch`: leftmost match of the outage-window pattern. -/
def rexFind : Str → Option (Nat × Nat × Nat × Nat)
  | [] => rexMatchAt []
  | c :: t =>
    match rexMatchAt (c :: t) with
    | some q => some q
    | none => rexFind t

/-- `time.Parse("15:04", ...)` as minutes since 0000-01-01 00:00 (the date a
successful parse of that layout carries).  A failed parse yields Go's zero
`time.Time`, 0001-01-01 00:00, which lies 366 days = 527040 minutes after that
epoch (year 0 is a leap year in the proleptic Gregorian calendar). -/
def goTimeValMinutes (h m : Nat) : Int :=
  if h ≤ 23 ∧ m ≤ 59 then ((h * 60 + m : Nat) : Int) else 527040

/-- `outageMinutes` from powerbot.go.  `Duration.Minutes` divides the whole
minutes exactly and `int` truncation is the identity on them. -/
def outageMinutes (text : Str) : Int :=
  match rexFind text with
  | none => 0
  | some (h1, m1, h2, m2) => goTimeValMinutes h2 m2 - goTimeValMinutes h1 m1

/-! `extractSection`: the two regexes (with and without `<b>` tags) reduced to
deterministic scanners.  The regex starts with a literal header, so the
leftmost match starts at the first position where the header matches; the lazy
`(?s)(.*?)` then extends to the earliest following generic header (the
alternation's first branch) or to the end of the text (`$`). -/

/-- `<b>?` + header phrase + `\s+` + the given date title + `</b>?`. -/
def matchSpecHeader (withB : Bool) (dateTitle : Str) (s : Str) : Option Str := do
  let s ← if withB then matchLit bTagOpen s else some s
  let s ← matchLit headerPhrase s
  let s ← reqSpaces1 s
  let s ← matchLit dateTitle s
  if withB then matchLit bTagClose s else some s

def reqDigits : Nat → Str → Option Str
  | 0, s => some s
  | _ + 1, [] => none
  | n + 1, c :: t => if isDig c then reqDigits n t else none

/-- `<b>?` + header phrase + `\s+\d{2}\.\d{2}\.\d{4}` + `</b>?`. -/
def matchGenHeader (withB : Bool) (s : Str) : Option Str := do
  let s ← if withB then matchLit bTagOpen s else some s
  let s ← matchLit headerPhrase s
  let s ← reqSpaces1 s
  let s ← reqDigits 2 s
  let s ← matchLit ['.'] s
  let s ← reqDigits 2 s
  let s ← matchLit ['.'] s
  let s ← reqDigits 4 s
  if withB then matchLit bTagClose s else some s

/-- Scan suffixes left to right; return what follows the first match. -/
def findFirstRest (f : Str → Option Str) : Str → Option Str
  | [] => f []
  | c :: t =>
    match f (c :: t) with
    | some r => some r
    | none => findFirstRest f t

/-- The lazy capture: everything up to the earliest generic header, or all. -/
def captureSection (withB : Bool) : Str → Str
  | [] => []
  | c :: t =>
    if (matchGenHeader withB (c :: t)).isSome then [] else c :: captureSection withB t

/-- `extractSection` from powerbot.go: tagged pattern first, plain fallback. -/
def extractSection (body dateTitle : Str) : Str :=
  match findFirstRest (matchSpecHeader true dateTitle) body with
  | some rest => captureSection true rest
  | none =>
    match findFirstRest (matchSpecHeader false dateTitle) body with
    | some rest => captureSection false rest
    | none => []

/-! `extractGroup`: pattern `group[^\.]*\.?\s*([^\.]*\.)` and the fallback
`group.*?\.\s*([^.]+\.)`, reduced to their backtracking semantics.  For the
first pattern, starting after the first occurrence of the label: `[^.]*`
greedily runs to the first period, `\.?` consumes it, `\s*` skips maximal
whitespace, and the capture runs through the next period; when no further
period exists the engine backtracks to `\.?` empty and captures the bare
period.  If no period follows the label at all, the pattern fails (and then so
does the fallback, which also needs a period after the label). -/

/-- Split at the first period: `some (before, after)` when one exists. -/
def splitFirstDot : Str → Option (Str × Str)
  | [] => none
  | c :: t =>
    if c = '.' then some ([], t)
    else
      match splitFirstDot t with
      | some (a, r) => some (c :: a, r)
      | none => none

def extractGroupP1 (sec g : Str) : Option Str :=
  match findFirstRest (matchLit g) sec with
  | none => none
  | some t =>
    match splitFirstDot t with
    | none => none
    | some (_, r) =>
      let r2 := r.dropWhile isRexSpace
      match splitFirstDot r2 with
      | some (run, _) => some (run ++ ['.'])
      | none => some ['.']

/-- Tail `\s*([^.]+\.)` of the fallback pattern after a candidate period.  When
the text right after the whitespace starts with a period, the engine gives one
whitespace rune back to satisfy `[^.]+`. -/
def p2Tail (r : Str) : Option Str :=
  let w := r.takeWhile isRexSpace
  let r2 := r.dropWhile isRexSpace
  match splitFirstDot r2 with
  | none => none
  | some (run, _) =>
    if run ≠ [] then some (run ++ ['.'])
    else
      match w.getLast? with
      | some c => some [c, '.']
      | none => none

/-- Lazy `.*?\.` of the fallback: candidate periods left to right, not past a
newline (no `s` flag on the fallback pattern). -/
def p2Scan : Str → Option Str
  | [] => none
  | c :: t =>
    if c = '\n' then none
    else if c = '.' then
      match p2Tail t with
      | some cap => some cap
      | none => p2Scan t
    else p2Scan t

def extractGroupP2 (sec g : Str) : Option Str :=
  findFirstRest (fun s => (matchLit g s).bind p2Scan) sec

/-- `extractGroup` from powerbot.go, with the `strings.TrimSpace` applied to
the captured group. -/
def extractGroup (sec g : Str) : Str :=
  match extractGroupP1 sec g with
  | some cap => trimSpaceGo cap
  | none =>
    match extractGroupP2 sec g with
    | some cap => trimSpaceGo cap
    | none => []

/-! `parsePage` and its per-date body. -/

/-- The inner group loop of `parsePage`: try both tracked groups in order. -/
def dayGroups (sec : Str) : List (Str × GroupInfo) :=
  [groupPower, groupWater].foldl
    (fun acc g =>
      let txt := extractGroup sec g
      if txt = [] then acc
      else
        let norm := normalizeText txt
        acc ++ [(g, ⟨norm, outageMinutes norm⟩)])
    []

/-- One iteration of the date loop of `parsePage` as a partial result. -/
def parseDay (body : Str) (d : GoDate) : Option DayInfo :=
  let sec := extractSection body (fmtTitle d)
  if sec = [] then none
  else
    let gs := dayGroups sec
    if gs = [] then none
    else some ⟨fmtISO d, gs⟩

/-- The date loop of `parsePage`, accumulating `out` in order. -/
def parsePageLoop (body : Str) : List GoDate → List DayInfo
  | [] => []
  | d :: rest =>
    let sec := extractSection body (fmtTitle d)
    if sec = [] then parsePageLoop body rest
    else
      let gs := dayGroups sec
      if gs = [] then parsePageLoop body rest
      else ⟨fmtISO d, gs⟩ :: parsePageLoop body rest

/-- `parsePage` from powerbot.go; its only return is `out, nil`. -/
def parsePage (body : Str) (dates : List GoDate) : Except Str (List DayInfo) :=
  Except.ok (parsePageLoop body dates)

/-! State operations. -/

/-- `findDay`: first stored day with the given date (Go returns a pointer). -/
def findDayIn : List DayInfo → Str → Option DayInfo
  | [], _ => none
  | d :: rest, date => if d.date = date then some d else findDayIn rest date

def findDay (st : State) (date : Str) : Option DayInfo := findDayIn st.days date

/-- The loop of `upsertDay`: replace the first day with the same date, else
append. -/
def upsertDays : List DayInfo → DayInfo → List DayInfo
  | [], day => [day]
  | d :: rest, day => if d.date = day.date then day :: rest else d :: upsertDays rest day

def upsertDay (st : State) (day : DayInfo) : State := ⟨upsertDays st.days day⟩

/-- Membership in the cutoff set (`map[string]bool` keyed by formatted dates). -/
def elemStr : Str → List Str → Bool
  | _, [] => false
  | s, k :: rest => if k = s then true else elemStr s rest

/-- The loop building the cutoff set of `keepLastTwo`: each reference date
contributes itself and its previous day. -/
def cutoffKeys : List GoDate → List Str → List Str
  | [], acc => acc
  | d :: rest, acc => cutoffKeys rest (acc ++ [fmtISO d, fmtISO (prevDay d)])

/-- `keepLastTwo` from powerbot.go. -/
def keepLastTwo (st : State) (refs : List GoDate) : State :=
  let cutoff := cutoffKeys refs []
  ⟨st.days.filter (fun d => elemStr d.date cutoff)⟩

/-! `compareDay`. -/

/-- One iteration of the group loop of `compareDay`.  A missing Go map entry
yields the zero `GroupInfo`, so a missing side contributes `minutes = 0` to the
worsened test. -/
def compareStep (old cur : DayInfo) (acc : Bool × Bool) (g : Str) : Bool × Bool :=
  let o := glookup g old.groups
  let n := glookup g cur.groups
  if o.isNone && n.isNone then acc
  else if o.isNone || n.isNone || decide ((o.getD defaultGI).text ≠ (n.getD defaultGI).text) then
    (true, acc.2 || decide ((o.getD defaultGI).minutes < (n.getD defaultGI).minutes))
  else acc

/-- `compareDay` from powerbot.go: `(changed, more)`. -/
def compareDay (old cur : DayInfo) : Bool × Bool :=
  [groupPower, groupWater].foldl (compareStep old cur) (false, false)

/-! Message formatting (`postSchedule` builds the message and hands it to the
Telegram notifier, an external collaborator; the pure message is modelled). -/

/-- `time.Parse("2006-01-02", s)`, succeeding on a strict `YYYY-MM-DD` with a
valid calendar date. -/
def parseISO (s : Str) : Option GoDate :=
  match s with
  | [y1, y2, y3, y4, s1, m1, m2, s2, d1, d2] =>
    if isDig y1 && isDig y2 && isDig y3 && isDig y4 && s1 = '-' && isDig m1 && isDig m2 &&
        s2 = '-' && isDig d1 && isDig d2 then
      let y := ((y1.toNat - 48) * 10 + (y2.toNat - 48)) * 100 +
        ((y3.toNat - 48) * 10 + (y4.toNat - 48))
      let m := (m1.toNat - 48) * 10 + (m2.toNat - 48)
      let dd := (d1.toNat - 48) * 10 + (d2.toNat - 48)
      if 1 ≤ m ∧ m ≤ 12 ∧ 1 ≤ dd ∧ dd ≤ daysInMonth y m then some ⟨y, m, dd⟩ else none
    else none
  | _ => none

/-- `toDM` from powerbot.go: a failed parse leaves Go's zero time, which
formats as `01.01`. -/
def toDM (date : Str) : Str :=
  match parseISO date with
  | some d => padNum 2 d.day ++ ['.'] ++ padNum 2 d.month
  | none => zeroDM

/-- `formatLine` from powerbot.go. -/
def formatLine (day : DayInfo) (g label : Str) : Str :=
  match glookup g day.groups with
  | some gi => label ++ sepColon ++ gi.text
  | none => label ++ sepColon ++ noDataText

/-- `strings.Join(lines, "\n")`. -/
def joinNl : List Str → Str
  | [] => []
  | [l] => l
  | l :: rest => l ++ '\n' :: joinNl rest

/-- The message built by `postSchedule` (title line, power line, water line). -/
def postSchedule (day : DayInfo) (isUpdate more : Bool) : Str :=
  let title :=
    if isUpdate then
      if more then updWorsePre ++ toDM day.date else updBetterPre ++ toDM day.date
    else schedTitlePre ++ toDM day.date
  joinNl [['*'] ++ title ++ ['*'], formatLine day groupPower labelPower,
    formatLine day groupWater labelWater]

/-! JSON model of `encoding/json` for the state structs: `MarshalIndent`
emits struct fields in declaration order and map keys in ascending string
order; `Unmarshal` takes the last value of a duplicated key, leaves a missing
or null field at its zero value, and fails on a type mismatch. -/

inductive Jval where
  | jnull : Jval
  | jbool : Bool → Jval
  | jnum : Int → Jval
  | jstr : Str → Jval
  | jarr : List Jval → Jval
  | jobj : List (Str × Jval) → Jval

/-- Lexicographic comparison on code points (equals byte order of UTF-8). -/
def strLeB : Str → Str → Bool
  | [], _ => true
  | _ :: _, [] => false
  | a :: as, b :: bs => if a = b then strLeB as bs else decide (a < b)

/-- Map keys as sorted by `encoding/json` when marshalling a Go map. -/
def sortGroups (l : List (Str × GroupInfo)) : List (Str × GroupInfo) :=
  List.insertionSort (fun a b => strLeB a.1 b.1 = true) l

def encodeGroup (g : GroupInfo) : Jval :=
  .jobj [(keyText, .jstr g.text), (keyMinutes, .jnum g.minutes)]

def encodeDay (d : DayInfo) : Jval :=
  .jobj [(keyDate, .jstr d.date),
    (keyGroups, .jobj ((sortGroups d.groups).map (fun kv => (kv.1, encodeGroup kv.2))))]

def encodeState (st : State) : Jval := .jobj [(keyDays, .jarr (st.days.map encodeDay))]

/-- Object field lookup with `encoding/json`'s last-occurrence-wins rule. -/
def jLookup (k : Str) : List (Str × Jval) → Option Jval
  | [] => none
  | (k2, v) :: rest =>
    match jLookup k rest with
    | some r => some r
    | none => if k2 = k then some v else none

def decodeGroup : Jval → Option GroupInfo
  | .jobj fields =>
    let t : Option Str :=
      match jLookup keyText fields with
      | some (.jstr s) => some s
      | none => some []
      | some .jnull => some []
      | some _ => none
    let m : Option Int :=
      match jLookup keyMinutes fields with
      | some (.jnum n) => some n
      | none => some 0
      | some .jnull => some 0
      | some _ => none
    match t, m with
    | some t, some m => some ⟨t, m⟩
    | _, _ => none
  | _ => none

def decodeGroups : List (Str × Jval) → Option (List (Str × GroupInfo))
  | [] => some []
  | (k, j) :: rest =>
    match decodeGroup j, decodeGroups rest with
    | some g, some gs => some ((k, g) :: gs)
    | _, _ => none

def decodeDay : Jval → Option DayInfo
  | .jobj fields =>
    let d : Option Str :=
      match jLookup keyDate fields with
      | some (.jstr s) => some s
      | none => some []
      | some .jnull => some []
      | some _ => none
    let g : Option (List (Str × GroupInfo)) :=
      match jLookup keyGroups fields with
      | some (.jobj gf) => decodeGroups gf
      | none => some []
      | some .jnull => some []
      | some _ => none
    match d, g with
    | some d, some g => some ⟨d, g⟩
    | _, _ => none
  | _ => none

def decodeDays : List Jval → Option (List DayInfo)
  | [] => some []
  | j :: rest =>
    match decodeDay j, decodeDays rest with
    | some d, some ds => some (d :: ds)
    | _, _ => none

def decodeState : Jval → Option State
  | .jobj fields =>
    match jLookup keyDays fields with
    | some (.jarr l) => (decodeDays l).map State.mk
    | none => some ⟨[]⟩
    | some .jnull => some ⟨[]⟩
    | some _ => none
  | _ => none

/-! File-system model for `saveState` / `loadState`: an association list from
path to stored JSON document.  `saveStateMid` is the state after `os.WriteFile`
to the temporary path and before `os.Rename`; a crash between the two leaves
exactly this state behind.  `os.MkdirAll` touches no files and is a no-op in
this model. -/

abbrev FS := List (Str × Jval)

def fsRead : FS → Str → Option Jval
  | [], _ => none
  | (p, v) :: rest, q => if p = q then some v else fsRead rest q

def fsWrite : FS → Str → Jval → FS
  | [], p, v => [(p, v)]
  | (p2, v2) :: rest, p, v =>
    if p2 = p then (p, v) :: rest else (p2, v2) :: fsWrite rest p v

def fsErase : FS → Str → FS
  | [], _ => []
  | (p2, v2) :: rest, p => if p2 = p then fsErase rest p else (p2, v2) :: fsErase rest p

/-- `os.Rename(src, dst)`: atomic replacement of `dst` by `src`. -/
def fsRename (fs : FS) (src dst : Str) : FS :=
  match fsRead fs src with
  | none => fs
  | some v => fsWrite (fsErase fs src) dst v

/-- `path + ".tmp"` as computed by `saveState`. -/
def tmpPath (p : Str) : Str := p ++ tmpSuffix

/-- `filepath.Dir` up to cleaning: everything before the last slash. -/
def dirOf (p : Str) : Str := (p.reverse.dropWhile (fun c => decide (c ≠ '/'))).reverse

/-- `saveState` after `os.WriteFile(tmp, ...)`, before the rename. -/
def saveStateMid (fs : FS) (path : Str) (st : State) : FS :=
  fsWrite fs (tmpPath path) (encodeState st)

/-- `saveState` from powerbot.go: write the marshalled state to the temporary
path, then rename it over the target. -/
def saveState (fs : FS) (path : Str) (st : State) : FS :=
  fsRename (saveStateMid fs path st) (tmpPath path) path

/-- `loadState` from powerbot.go: read the file and unmarshal it. -/
def loadState (fs : FS) (path : Str) : Option State :=
  (fsRead fs path).bind decodeState

/-! Predicates used to state the claims. -/

/-- `p` occurs as a contiguous substring of `s`. -/
def occursIn (p s : Str) : Prop := ∃ u v, s = u ++ p ++ v

/-- No two adjacent blanks (the pattern of `ReplaceAll(s, "  ", " ")` is absent). -/
def noDouble : Str → Bool
  | [] => true
  | [_] => true
  | c1 :: c2 :: r => !(c1 = ' ' && c2 = ' ') && noDouble (c2 :: r)

/-- The last character, if any, is not a blank. -/
def lastNotSpaceCh : Str → Bool
  | [] => true
  | [c] => decide (c ≠ ' ')
  | _ :: t => lastNotSpaceCh t

/-- Text-difference test for one tracked group, as in `compareDay`'s loop. -/
def groupDiffB (old cur : DayInfo) (g : Str) : Bool :=
  match glookup g old.groups, glookup g cur.groups with
  | none, none => false
  | some a, some b => decide (a.text ≠ b.text)
  | _, _ => true

/-! Concrete inputs used by witnesses, counterexamples and particular cases. -/

def sample150 : Str := "немає з 14:00 до 16:30".data

def sampleW2 : Str := "немає з 09:00 до 12:30".data

def cexReversed : Str := "немає з 16:00 до 14:00.".data

def w4txt : Str := " — Електроенергія є. ".data

def w4u : Str := " — ".data

def w4v : Str := ". ".data

def txtA : Str := "немає з 10:00 до 11:00".data

def txtB : Str := "немає з 10:00 до 11:30".data

def w1old : DayInfo := ⟨[], [(groupPower, ⟨txtA, 60⟩)]⟩

def w1cur : DayInfo := ⟨[], [(groupPower, ⟨txtB, 90⟩)]⟩

def d08 : Str := "2025-01-08".data

def d09 : Str := "2025-01-09".data

def d10 : Str := "2025-01-10".data

def d11 : Str := "2025-01-11".data

def ex4St : State := ⟨[⟨d08, []⟩, ⟨d09, []⟩, ⟨d10, []⟩, ⟨d11, []⟩]⟩

def ex3St : State := ⟨[⟨d09, []⟩, ⟨d10, []⟩, ⟨d11, []⟩]⟩

def refs2 : List GoDate := [⟨2025, 1, 10⟩, ⟨2025, 1, 11⟩]

def exBody2 : Str :=
  ("<b>Графік погодинних відключень на 10.01.2025</b> Група 6.1. — немає з 10:00 до 12:00. Група 4.1. — Електроенергія є. <b>Графік погодинних відключень на 11.01.2025</b> Група 6.1. — немає з 08:00 до 09:30.").data

def statePath : Str := "/var/lib/powerbot/state.json".data

def exSt : State :=
  ⟨[⟨d10, [(groupPower, ⟨txtA, 60⟩), (groupWater, ⟨noOutageText, 0⟩)]⟩,
    ⟨d11, [(groupWater, ⟨txtB, 90⟩)]⟩]⟩

def w7day : DayInfo := ⟨d10, [(groupPower, ⟨txtA, 60⟩)]⟩

def w7msg : Str :=
  ("*графік на 10.01*\n*💡 світла не буде*: немає з 10:00 до 11:00\n*💧 води не буде*: н/д").data

def w10st : State := ⟨[⟨d10, []⟩, ⟨d11, []⟩]⟩

def w10day : DayInfo := ⟨d10, [(groupPower, ⟨txtB, 90⟩)]⟩

/-! Theorems. -/

/-- C2: `outageMinutes` returns the whole-minute difference of the two matched
wall-clock times when the text contains the outage-window pattern (with valid
24-hour zero-padded times), and 0 when the pattern is absent; in particular a
range from 14:00 to 16:30 yields 150 minutes. -/
theorem outageMinutes_spec :
    (∀ (t : Str) (h1 m1 h2 m2 : Nat), rexFind t = some (h1, m1, h2, m2) →
      h1 ≤ 23 → m1 ≤ 59 → h2 ≤ 23 → m2 ≤ 59 →
      outageMinutes t = ((h2 * 60 + m2 : Nat) : Int) - ((h1 * 60 + m1 : Nat) : Int)) ∧
    (∀ t : Str, rexFind t = none → outageMinutes t = 0) ∧
    outageMinutes sample150 = 150 := by
  refine ⟨?_, ?_, by decide⟩
  · intro t h1 m1 h2 m2 hf hh1 hm1 hh2 hm2
    simp [outageMinutes, hf, goTimeValMinutes, hh1, hm1, hh2, hm2]
  · intro t hf
    simp [outageMinutes, hf]

/-- Witness for C2 at a concrete text containing a 09:00-12:30 window. -/
theorem outageMinutes_spec_w :
    outageMinutes sampleW2 = ((12 * 60 + 30 : Nat) : Int) - ((9 * 60 + 0 : Nat) : Int) :=
  outageMinutes_spec.1 sampleW2 9 0 12 30 (by decide) (by decide) (by decide) (by decide)
    (by decide)

/-- C3 counterexample: a fragment whose normalized text carries a reversed
window (16:00 to 14:00) yields a negative minutes value, refuting
non-negativity of extracted minutes. -/
theorem outageMinutes_nonneg_cex :
    outageMinutes (normalizeText cexReversed) = -120 ∧
    outageMinutes (normalizeText cexReversed) < 0 := by
  constructor
  · decide
  · decide

/-- C3 (amended): the minutes computed from a normalized text are non-negative
provided that, when the outage-window pattern matches, it matches valid
wall-clock times whose end is not earlier than its start; with no match the
minutes are 0. -/
theorem outageMinutes_nonneg_amended (t : Str)
    (h : rexFind t = none ∨ ∃ h1 m1 h2 m2, rexFind t = some (h1, m1, h2, m2) ∧
      h1 ≤ 23 ∧ m1 ≤ 59 ∧ h2 ≤ 23 ∧ m2 ≤ 59 ∧ h1 * 60 + m1 ≤ h2 * 60 + m2) :
    0 ≤ outageMinutes t := by
  rcases h with hf | ⟨h1, m1, h2, m2, hf, hh1, hm1, hh2, hm2, hle⟩
  · simp [outageMinutes, hf]
  · simp only [outageMinutes, hf, goTimeValMinutes, if_pos (And.intro hh1 hm1),
      if_pos (And.intro hh2 hm2)]
    omega

/-- Witness for the amended C3 at a concrete text with a forward window. -/
theorem outageMinutes_nonneg_amended_w : 0 ≤ outageMinutes sample150 :=
  outageMinutes_nonneg_amended sample150
    (Or.inr ⟨14, 0, 16, 30, by decide, by decide, by decide, by decide, by decide, by decide⟩)

theorem elemStr_append (s : Str) (a b : List Str) :
    elemStr s (a ++ b) = (elemStr s a || elemStr s b) := by
  induction a with
  | nil => simp [elemStr]
  | cons k rest ih => by_cases h : k = s <;> simp [elemStr, h, ih]

theorem cutoffKeys_mem (s : Str) : ∀ (refs : List GoDate) (acc : List Str),
    elemStr s (cutoffKeys refs acc) = true ↔
      elemStr s acc = true ∨ ∃ r ∈ refs, s = fmtISO r ∨ s = fmtISO (prevDay r) := by
  intro refs
  induction refs with
  | nil => intro acc; simp [cutoffKeys]
  | cons d rest ih =>
    intro acc
    rw [cutoffKeys, ih, elemStr_append]
    simp only [elemStr, Bool.or_eq_true, List.mem_cons]
    constructor
    · rintro (h | h)
      · rcases h with h | h
        · exact Or.inl h
        · split at h
          · rename_i he
            exact Or.inr ⟨d, Or.inl rfl, Or.inl he.symm⟩
          · split at h
            · rename_i _ he
              exact Or.inr ⟨d, Or.inl rfl, Or.inr he.symm⟩
            · simp [elemStr] at h
      · rcases h with ⟨r, hr, hor⟩
        exact Or.inr ⟨r, Or.inr hr, hor⟩
    · rintro (h | ⟨r, hr | hr, hor⟩)
      · exact Or.inl (Or.inl h)
      · subst hr
        refine Or.inl (Or.inr ?_)
        rcases hor with h | h <;> simp [elemStr, h]
      · exact Or.inr ⟨r, hr, hor⟩

/-- C5: `keepLastTwo` retains exactly the stored days whose date equals a
reference date or a reference date minus one day; in particular with reference
dates 2025-01-10 and 2025-01-11 the day 2025-01-08 is removed while
2025-01-09, 2025-01-10 and 2025-01-11 are retained. -/
theorem keepLastTwo_spec (st : State) (refs : List GoDate) :
    (keepLastTwo st refs).days =
      st.days.filter (fun d => elemStr d.date (cutoffKeys refs [])) ∧
    (∀ d : DayInfo, d ∈ (keepLastTwo st refs).days ↔
      d ∈ st.days ∧ ∃ r ∈ refs, d.date = fmtISO r ∨ d.date = fmtISO (prevDay r)) ∧
    keepLastTwo ex4St refs2 = ex3St := by
  refine ⟨rfl, ?_, by decide⟩
  intro d
  rw [keepLastTwo]
  simp only [List.mem_filter, cutoffKeys_mem]
  simp [elemStr]

/-- Witness for C5: the concrete retention instance. -/
theorem keepLastTwo_spec_w : keepLastTwo ex4St refs2 = ex3St :=
  (keepLastTwo_spec ex4St refs2).2.2

theorem fsRead_write_eq (fs : FS) (p : Str) (v : Jval) :
    fsRead (fsWrite fs p v) p = some v := by
  induction fs with
  | nil => simp [fsWrite, fsRead]
  | cons kv rest ih =>
    obtain ⟨p2, v2⟩ := kv
    by_cases h : p2 = p <;> simp [fsWrite, fsRead, h, ih]

theorem fsRead_write_ne (fs : FS) (p q : Str) (v : Jval) (h : p ≠ q) :
    fsRead (fsWrite fs p v) q = fsRead fs q := by
  induction fs with
  | nil => simp [fsWrite, fsRead, h]
  | cons kv rest ih =>
    obtain ⟨p2, v2⟩ := kv
    by_cases h2 : p2 = p
    · subst h2
      simp [fsWrite, fsRead, h]
    · simp [fsWrite, fsRead, h2, ih]

theorem tmpPath_ne (p : Str) : tmpPath p ≠ p := by
  intro h
  have h2 := congrArg List.length h
  have h3 : tmpSuffix.length = 4 := by decide
  rw [tmpPath, List.length_append, h3] at h2
  omega

theorem dropWhile_append_of_all (f : Char → Bool) :
    ∀ (a b : Str), (∀ c ∈ a, f c = true) → List.dropWhile f (a ++ b) = List.dropWhile f b := by
  intro a
  induction a with
  | nil => intro b _; rfl
  | cons c t ih =>
    intro b h
    have hc : f c = true := h c (List.mem_cons_self c t)
    simp only [List.cons_append, List.dropWhile_cons, hc, if_true]
    exact ih b (fun x hx => h x (List.mem_cons_of_mem c hx))

theorem dirOf_tmpPath (p : Str) : dirOf (tmpPath p) = dirOf p := by
  unfold dirOf tmpPath
  rw [List.reverse_append, dropWhile_append_of_all]
  decide

theorem fsRead_saveState (fs : FS) (path : Str) (st : State) :
    fsRead (saveState fs path st) path = some (encodeState st) := by
  simp [saveState, fsRename, saveStateMid, fsRead_write_eq]

/-- C9: `saveState` writes the serialized state to a temporary path in the
same directory as the target (the target path plus a suffix without path
separators) and then installs it with a single rename; in the intermediate
state after the temporary write and before the rename, the target path still
holds its previous content and loads as before, and after the rename the
target holds the newly serialized state. -/
theorem saveState_atomic (fs : FS) (path : Str) (st : State) :
    dirOf (tmpPath path) = dirOf path ∧
    tmpPath path ≠ path ∧
    saveState fs path st = fsRename (saveStateMid fs path st) (tmpPath path) path ∧
    fsRead (saveStateMid fs path st) path = fsRead fs path ∧
    loadState (saveStateMid fs path st) path = loadState fs path ∧
    fsRead (saveState fs path st) path = some (encodeState st) := by
  refine ⟨dirOf_tmpPath path, tmpPath_ne path, rfl, ?_, ?_, fsRead_saveState fs path st⟩
  · exact fsRead_write_ne fs (tmpPath path) path (encodeState st) (tmpPath_ne path)
  · rw [loadState, loadState, saveStateMid,
      fsRead_write_ne fs (tmpPath path) path (encodeState st) (tmpPath_ne path)]

/-- Witness for C9 at a concrete path and state. -/
theorem saveState_atomic_w :
    fsRead (saveStateMid [] statePath exSt) statePath = fsRead ([] : FS) statePath :=
  (saveState_atomic [] statePath exSt).2.2.2.1

theorem upsertDays_map_date (days : List DayInfo) (day : DayInfo) :
    (upsertDays days day).map DayInfo.date =
      if day.date ∈ days.map DayInfo.date then days.map DayInfo.date
      else days.map DayInfo.date ++ [day.date] := by
  induction days with
  | nil => simp [upsertDays]
  | cons d rest ih =>
    by_cases h : d.date = day.date
    · simp [upsertDays, h]
    · have h2 : ¬ day.date = d.date := fun he => h he.symm
      by_cases hm : day.date ∈ rest.map DayInfo.date <;>
        simp [upsertDays, h, ih, h2, hm]

theorem findDayIn_upsert (days : List DayInfo) (day : DayInfo) :
    findDayIn (upsertDays days day) day.date = some day := by
  induction days with
  | nil => simp [upsertDays, findDayIn]
  | cons d rest ih =>
    by_cases h : d.date = day.date
    · simp [upsertDays, h, findDayIn]
    · simp [upsertDays, h, findDayIn, ih]

theorem upsertDays_mem_of (days : List DayInfo) (day d : DayInfo)
    (hd : d ∈ days) (hne : d.date ≠ day.date) : d ∈ upsertDays days day := by
  induction days with
  | nil => simp at hd
  | cons d2 rest ih =>
    rcases List.mem_cons.mp hd with rfl | hmem
    · simp [upsertDays, hne]
    · by_cases h : d2.date = day.date
      · simp only [upsertDays, if_pos h, List.mem_cons]
        exact Or.inr hmem
      · simp only [upsertDays, if_neg h, List.mem_cons]
        exact Or.inr (ih hmem)

theorem upsertDays_mem_inv (days : List DayInfo) (day d : DayInfo)
    (hnd : (days.map DayInfo.date).Nodup) (hd : d ∈ upsertDays days day) :
    d = day ∨ (d ∈ days ∧ d.date ≠ day.date) := by
  induction days with
  | nil =>
    simp [upsertDays] at hd
    exact Or.inl hd
  | cons d2 rest ih =>
    rw [List.map_cons, List.nodup_cons] at hnd
    obtain ⟨hd2, hndr⟩ := hnd
    by_cases h : d2.date = day.date
    · simp [upsertDays, h] at hd
      rcases hd with rfl | hmem
      · exact Or.inl rfl
      · refine Or.inr ⟨List.mem_cons_of_mem d2 hmem, ?_⟩
        intro he
        apply hd2
        have h3 : d.date ∈ List.map DayInfo.date rest := List.mem_map_of_mem DayInfo.date hmem
        rwa [he, ← h] at h3
    · simp [upsertDays, h] at hd
      rcases hd with rfl | hmem
      · exact Or.inr ⟨List.mem_cons_self d rest, h⟩
      · rcases ih hndr hmem with rfl | ⟨hm2, hne2⟩
        · exact Or.inl rfl
        · exact Or.inr ⟨List.mem_cons_of_mem d2 hm2, hne2⟩

/-- C10: on a state whose stored days have pairwise distinct dates,
`upsertDay` preserves date uniqueness (replacing the entry with the matching
date or appending a new one), leaves every day with a different date in place,
adds nothing else, and `findDay` at the inserted date afterwards returns
exactly the inserted record. -/
theorem upsertDay_findDay_spec (st : State) (day : DayInfo)
    (h : (st.days.map DayInfo.date).Nodup) :
    ((upsertDay st day).days.map DayInfo.date).Nodup ∧
    ((upsertDay st day).days.map DayInfo.date =
      if day.date ∈ st.days.map DayInfo.date then st.days.map DayInfo.date
      else st.days.map DayInfo.date ++ [day.date]) ∧
    (∀ d ∈ st.days, d.date ≠ day.date → d ∈ (upsertDay st day).days) ∧
    (∀ d ∈ (upsertDay st day).days, d = day ∨ (d ∈ st.days ∧ d.date ≠ day.date)) ∧
    findDay (upsertDay st day) day.date = some day := by
  refine ⟨?_, upsertDays_map_date st.days day,
    fun d hd hne => upsertDays_mem_of st.days day d hd hne,
    fun d hd => upsertDays_mem_inv st.days day d h hd,
    findDayIn_upsert st.days day⟩
  rw [show (upsertDay st day).days = upsertDays st.days day from rfl, upsertDays_map_date]
  by_cases hm : day.date ∈ st.days.map DayInfo.date
  · simpa [hm] using h
  · simp [hm, List.nodup_append, h]

/-- Witness for C10 at a concrete two-day state. -/
theorem upsertDay_findDay_spec_w :
    findDay (upsertDay w10st w10day) w10day.date = some w10day :=
  (upsertDay_findDay_spec w10st w10day (by decide)).2.2.2.2

theorem compareStep_fst (old cur : DayInfo) (acc : Bool × Bool) (g : Str) :
    (compareStep old cur acc g).1 = (acc.1 || groupDiffB old cur g) := by
  cases ho : glookup g old.groups <;> cases hn : glookup g cur.groups <;>
    simp [compareStep, groupDiffB, ho, hn]
  rename_i a b
  by_cases h : a.text = b.text <;> simp [h]

theorem compareDay_fst (old cur : DayInfo) :
    (compareDay old cur).1 = (groupDiffB old cur groupPower || groupDiffB old cur groupWater) := by
  simp [compareDay, List.foldl_cons, List.foldl_nil, compareStep_fst]

theorem groupDiffB_iff (old cur : DayInfo) (g : Str) : groupDiffB old cur g = true ↔
    ((glookup g old.groups).isSome ≠ (glookup g cur.groups).isSome) ∨
    (∃ a b, glookup g old.groups = some a ∧ glookup g cur.groups = some b ∧
      a.text ≠ b.text) := by
  cases ho : glookup g old.groups <;> cases hn : glookup g cur.groups <;>
    simp [groupDiffB, ho, hn]

/-- C1: `compareDay` marks the day changed exactly when some tracked group
(power or water) is present in exactly one of the two records or present in
both with differing normalized text; in particular for a group present in both
with previous minutes 60 and current minutes 90 and differing text it returns
(changed, worsened) = (true, true), with current minutes 30 and differing text
(true, false), and with identical text (false, false) regardless of minutes. -/
theorem compareDay_spec :
    (∀ old cur : DayInfo, ((compareDay old cur).1 = true ↔
      ∃ g ∈ [groupPower, groupWater],
        ((glookup g old.groups).isSome ≠ (glookup g cur.groups).isSome) ∨
        (∃ a b, glookup g old.groups = some a ∧ glookup g cur.groups = some b ∧
          a.text ≠ b.text))) ∧
    (∀ date1 date2 t1 t2 : Str, t1 ≠ t2 →
      compareDay ⟨date1, [(groupPower, ⟨t1, 60⟩)]⟩ ⟨date2, [(groupPower, ⟨t2, 90⟩)]⟩ =
        (true, true)) ∧
    (∀ date1 date2 t1 t2 : Str, t1 ≠ t2 →
      compareDay ⟨date1, [(groupPower, ⟨t1, 60⟩)]⟩ ⟨date2, [(groupPower, ⟨t2, 30⟩)]⟩ =
        (true, false)) ∧
    (∀ (date1 date2 t : Str) (m1 m2 : Int),
      compareDay ⟨date1, [(groupPower, ⟨t, m1⟩)]⟩ ⟨date2, [(groupPower, ⟨t, m2⟩)]⟩ =
        (false, false)) := by
  have hpw : groupPower ≠ groupWater := by decide
  refine ⟨?_, ?_, ?_, ?_⟩
  · intro old cur
    rw [compareDay_fst, Bool.or_eq_true, groupDiffB_iff, groupDiffB_iff]
    constructor
    · rintro (h | h)
      · exact ⟨groupPower, by simp, h⟩
      · exact ⟨groupWater, by simp, h⟩
    · rintro ⟨g, hg, h⟩
      rcases List.mem_cons.mp hg with rfl | hg2
      · exact Or.inl h
      · rcases List.mem_cons.mp hg2 with rfl | hg3
        · exact Or.inr h
        · simp at hg3
  · intro date1 date2 t1 t2 h
    simp [compareDay, compareStep, glookup, hpw, h, Ne.symm h]
  · intro date1 date2 t1 t2 h
    simp [compareDay, compareStep, glookup, hpw, h, Ne.symm h]
  · intro date1 date2 t m1 m2
    simp [compareDay, compareStep, glookup, hpw]

/-- Witness for C1: the 60-to-90 worsening instance at concrete texts. -/
theorem compareDay_spec_w : compareDay w1old w1cur = (true, true) :=
  compareDay_spec.2.1 [] [] txtA txtB (by decide)

/-- C7: the message built by `postSchedule` is a title line chosen by the
update/worsened classification (with DD.MM taken from the record's date),
followed by exactly one line per tracked group, power first then water, each
line being the fixed label, ": ", and the group's normalized text or the fixed
"no data" marker when the group is absent. -/
theorem postSchedule_spec (day : DayInfo) (isUpdate more : Bool) :
    postSchedule day isUpdate more =
      ['*'] ++ (if isUpdate then (if more then updWorsePre else updBetterPre)
          else schedTitlePre) ++ toDM day.date ++ ['*'] ++ ['\n'] ++
        labelPower ++ sepColon ++
        (match glookup groupPower day.groups with
          | some gi => gi.text
          | none => noDataText) ++ ['\n'] ++
        labelWater ++ sepColon ++
        (match glookup groupWater day.groups with
          | some gi => gi.text
          | none => noDataText) := by
  cases isUpdate <;> cases more <;>
    rcases hP : glookup groupPower day.groups with _ | gi <;>
    rcases hW : glookup groupWater day.groups with _ | gw <;>
      simp [postSchedule, formatLine, joinNl, hP, hW]

/-- Witness for C7 at a concrete single-group day. -/
theorem postSchedule_spec_w : postSchedule w7day false false = w7msg :=
  (postSchedule_spec w7day false false).trans (by decide)

theorem parsePageLoop_eq (body : Str) : ∀ ds : List GoDate,
    parsePageLoop body ds = ds.filterMap (parseDay body) := by
  intro ds
  induction ds with
  | nil => rfl
  | cons d rest ih =>
    rw [List.filterMap_cons]
    by_cases h1 : extractSection body (fmtTitle d) = []
    · simp [parsePageLoop, parseDay, h1, ih]
    · by_cases h2 : dayGroups (extractSection body (fmtTitle d)) = [] <;>
        simp [parsePageLoop, parseDay, h1, h2, ih]

theorem dayGroups_nil : dayGroups [] = [] := by decide

theorem glookup_dayGroups_none (sec g : Str) (h : extractGroup sec g = []) :
    glookup g (dayGroups sec) = none := by
  have hpw : groupPower ≠ groupWater := by decide
  have hwp : groupWater ≠ groupPower := by decide
  by_cases hg1 : g = groupPower
  · subst hg1
    by_cases h2 : extractGroup sec groupWater = [] <;>
      simp [dayGroups, List.foldl_cons, List.foldl_nil, h, h2, glookup, hpw, hwp]
  · by_cases hg2 : g = groupWater
    · subst hg2
      by_cases h1 : extractGroup sec groupPower = [] <;>
        simp [dayGroups, List.foldl_cons, List.foldl_nil, h, h1, glookup, hpw, hwp]
    · have n1 : groupPower ≠ g := fun he => hg1 he.symm
      have n2 : groupWater ≠ g := fun he => hg2 he.symm
      by_cases h1 : extractGroup sec groupPower = [] <;>
        by_cases h2 : extractGroup sec groupWater = [] <;>
          simp [dayGroups, List.foldl_cons, List.foldl_nil, h1, h2, glookup, n1, n2]

/-- C6: `parsePage` never fails on "not found": its error result is always
`ok`, its output is the per-date partial results in order, a date whose
section is absent yields no day record, a group whose extraction is empty is
absent from the day's group map, and a day record for a target date is emitted
exactly when at least one tracked group was extracted for it. -/
theorem parsePage_spec (body : Str) (dates : List GoDate) :
    parsePage body dates = Except.ok (dates.filterMap (parseDay body)) ∧
    (∀ d : GoDate, extractSection body (fmtTitle d) = [] → parseDay body d = none) ∧
    (∀ sec g : Str, extractGroup sec g = [] → glookup g (dayGroups sec) = none) ∧
    (∀ d : GoDate, parseDay body d = none ↔
      dayGroups (extractSection body (fmtTitle d)) = []) ∧
    (∀ rec : DayInfo, rec ∈ dates.filterMap (parseDay body) ↔
      ∃ d ∈ dates, parseDay body d = some rec) := by
  refine ⟨?_, ?_, fun sec g h => glookup_dayGroups_none sec g h, ?_, ?_⟩
  · rw [parsePage, parsePageLoop_eq]
  · intro d h
    simp [parseDay, h, dayGroups_nil]
  · intro d
    by_cases h1 : extractSection body (fmtTitle d) = []
    · simp [parseDay, h1, dayGroups_nil]
    · by_cases h2 : dayGroups (extractSection body (fmtTitle d)) = [] <;>
        simp [parseDay, h1, h2]
  · intro rec
    exact List.mem_filterMap

/-- Witness for C6: a date with no section in a concrete body yields no day
record. -/
theorem parsePage_spec_w : parseDay exBody2 ⟨2025, 1, 12⟩ = none :=
  (parsePage_spec exBody2 [⟨2025, 1, 10⟩, ⟨2025, 1, 12⟩]).2.1 ⟨2025, 1, 12⟩ (by decide)

theorem decodeGroup_encode (g : GroupInfo) : decodeGroup (encodeGroup g) = some g := by
  have h1 : keyMinutes ≠ keyText := by decide
  cases g with
  | mk t m => simp [decodeGroup, encodeGroup, jLookup, h1]

theorem decodeGroups_map : ∀ l : List (Str × GroupInfo),
    decodeGroups (l.map (fun kv => (kv.1, encodeGroup kv.2))) = some l := by
  intro l
  induction l with
  | nil => rfl
  | cons kv rest ih =>
    obtain ⟨k, v⟩ := kv
    simp [decodeGroups, decodeGroup_encode, ih]

theorem decodeDay_encode (d : DayInfo) :
    decodeDay (encodeDay d) = some ⟨d.date, sortGroups d.groups⟩ := by
  have h1 : keyGroups ≠ keyDate := by decide
  have h2 : keyDate ≠ keyGroups := by decide
  cases d with
  | mk dt gs => simp [decodeDay, encodeDay, jLookup, h1, h2, decodeGroups_map]

theorem decodeDays_map : ∀ ds : List DayInfo,
    decodeDays (ds.map encodeDay) =
      some (ds.map (fun d => ⟨d.date, sortGroups d.groups⟩)) := by
  intro ds
  induction ds with
  | nil => rfl
  | cons d rest ih => simp [decodeDays, decodeDay_encode, ih]

theorem decodeState_encode (st : State) :
    decodeState (encodeState st) =
      some ⟨st.days.map (fun d => ⟨d.date, sortGroups d.groups⟩)⟩ := by
  cases st with
  | mk ds => simp [decodeState, encodeState, jLookup, decodeDays_map]

theorem sortGroups_perm (l : List (Str × GroupInfo)) : (sortGroups l).Perm l :=
  List.perm_insertionSort _ l

theorem forall2_roundtrip : ∀ ds : List DayInfo,
    List.Forall₂ (fun a b : DayInfo => a.date = b.date ∧ a.groups.Perm b.groups)
      (ds.map (fun d => ⟨d.date, sortGroups d.groups⟩)) ds := by
  intro ds
  induction ds with
  | nil => exact List.Forall₂.nil
  | cons d rest ih => exact List.Forall₂.cons ⟨rfl, sortGroups_perm d.groups⟩ ih

/-- C8: saving a persisted state and loading it back reproduces an equal
structure: the same days in the same order with the same dates, and for each
day the same group records up to the ordering of the group map. -/
theorem saveLoad_roundtrip (fs : FS) (path : Str) (st : State) :
    ∃ st2 : State, loadState (saveState fs path st) path = some st2 ∧
      List.Forall₂ (fun a b : DayInfo => a.date = b.date ∧ a.groups.Perm b.groups)
        st2.days st.days := by
  refine ⟨⟨st.days.map (fun d => ⟨d.date, sortGroups d.groups⟩)⟩, ?_,
    forall2_roundtrip st.days⟩
  rw [loadState, fsRead_saveState]
  simp [decodeState_encode]

/-- Witness for C8 at a concrete two-day state. -/
theorem saveLoad_roundtrip_w :
    ∃ st2 : State, loadState (saveState [] statePath exSt) statePath = some st2 ∧
      List.Forall₂ (fun a b : DayInfo => a.date = b.date ∧ a.groups.Perm b.groups)
        st2.days exSt.days :=
  saveLoad_roundtrip [] statePath exSt

theorem hasPre_app (p v : Str) : hasPre p (p ++ v) = true := by
  induction p with
  | nil => rfl
  | cons c t ih => simp [hasPre, ih]

theorem containsS_of_hasPre (p s : Str) (h : hasPre p s = true) : containsS p s = true := by
  cases s with
  | nil => simpa [containsS] using h
  | cons c t => simp [containsS, h]

theorem containsS_cons (p s : Str) (c : Char) (h : containsS p s = true) :
    containsS p (c :: s) = true := by
  simp [containsS, h]

theorem containsS_of_occurs (p s : Str) (h : occursIn p s) : containsS p s = true := by
  obtain ⟨u, v, rfl⟩ := h
  induction u with
  | nil => exact containsS_of_hasPre p (p ++ v) (hasPre_app p v)
  | cons a u ih => exact containsS_cons p (u ++ p ++ v) a ih

theorem occurs_cons (p s : Str) (c : Char) (h : occursIn p s) : occursIn p (c :: s) := by
  obtain ⟨u, v, rfl⟩ := h
  exact ⟨c :: u, v, rfl⟩

theorem occurs_dropWhile (f : Char → Bool) (p l : Str) (hp : p ≠ [])
    (hh : f p.headI = false) (h : occursIn p l) : occursIn p (l.dropWhile f) := by
  obtain ⟨u, v, rfl⟩ := h
  induction u with
  | nil =>
    cases p with
    | nil => exact absurd rfl hp
    | cons c t =>
      simp only [List.headI] at hh
      rw [List.nil_append, List.cons_append, List.dropWhile_cons, hh]
      exact ⟨[], v, by simp⟩
  | cons a u ih =>
    have e : (a :: u) ++ p ++ v = a :: (u ++ p ++ v) := by simp
    rw [e, List.dropWhile_cons]
    by_cases hfa : f a
    · simpa [hfa] using ih
    · simp only [hfa, if_false]
      exact ⟨a :: u, v, rfl⟩

theorem occurs_reverse (p s : Str) (h : occursIn p s) : occursIn p.reverse s.reverse := by
  obtain ⟨u, v, rfl⟩ := h
  exact ⟨v.reverse, u.reverse, by simp⟩

theorem occurs_trimSpace (p l : Str) (hp : p ≠ []) (hh : isGoSpace p.headI = false)
    (hl : isGoSpace p.reverse.headI = false) (h : occursIn p l) :
    occursIn p (trimSpaceGo l) := by
  unfold trimSpaceGo
  have h1 := occurs_dropWhile isGoSpace p l hp hh h
  have h2 := occurs_reverse _ _ h1
  have hpr : p.reverse ≠ [] := by simpa using hp
  have h3 := occurs_dropWhile isGoSpace p.reverse _ hpr hl h2
  have h4 := occurs_reverse _ _ h3
  simpa using h4

theorem occurs_stripDash (p l : Str) (hp : p ≠ []) (hh : p.headI ≠ '—') (h : occursIn p l) :
    occursIn p (stripLeadingDash l) := by
  rcases l with _ | ⟨c, t⟩
  · exact h
  · by_cases hc : c = '—'
    · subst hc
      obtain ⟨u, v, he⟩ := h
      cases u with
      | nil =>
        cases p with
        | nil => exact absurd rfl hp
        | cons p0 p1 =>
          rw [List.nil_append, List.cons_append] at he
          have : p0 = '—' := (List.cons.injEq _ _ _ _ ▸ he).1.symm
          simp [List.headI, this] at hh
      | cons a u2 =>
        rw [List.cons_append] at he
        have h1 := (List.cons.injEq _ _ _ _ ▸ he).2
        exact ⟨u2, v, h1⟩
    · have e : stripLeadingDash (c :: t) = c :: t := by
        unfold stripLeadingDash
        split
        · rename_i he
          rw [List.cons.injEq] at he
          exact absurd he.1 hc
        · rfl
      rw [e]
      exact h

theorem occurs_map (f : Char → Char) (p l : Str) (h : occursIn p l) :
    occursIn (p.map f) (l.map f) := by
  obtain ⟨u, v, rfl⟩ := h
  exact ⟨u.map f, v.map f, by simp⟩

theorem collapse_seg : ∀ (n : Nat) (p v : Str), p.length ≤ n → noDouble p = true →
    lastNotSpaceCh p = true → collapse (p ++ v) = p ++ collapse v := by
  intro n
  induction n with
  | zero =>
    intro p v hl _ _
    have hpn : p = [] := List.eq_nil_of_length_eq_zero (Nat.le_zero.mp hl)
    subst hpn
    simp
  | succ n ih =>
    intro p v hl hnd hls
    rcases p with _ | ⟨c, p1⟩
    · simp
    · rcases p1 with _ | ⟨d, r⟩
      · have hc : c ≠ ' ' := by simpa [lastNotSpaceCh] using hls
        rcases v with _ | ⟨e, v1⟩
        · simp [collapse]
        · have hne : ¬ (c = ' ' ∧ e = ' ') := fun hx => hc hx.1
          simp [collapse, hne]
      · have hcd : ¬ (c = ' ' ∧ d = ' ') := by
          intro hx
          simp [noDouble, hx.1, hx.2] at hnd
        have hnd2 : noDouble (d :: r) = true := by
          simp [noDouble] at hnd
          exact hnd.2
        have hls2 : lastNotSpaceCh (d :: r) = true := hls
        have hlen : (d :: r).length ≤ n := by
          simp at hl ⊢
          omega
        have hstep := ih (d :: r) v hlen hnd2 hls2
        simp only [List.cons_append] at hstep ⊢
        simp [collapse, hcd, hstep]

theorem collapse_occurs : ∀ (n : Nat) (u p v : Str), u.length ≤ n → p ≠ [] →
    p.headI ≠ ' ' → noDouble p = true → lastNotSpaceCh p = true →
    occursIn p (collapse (u ++ p ++ v)) := by
  intro n
  induction n with
  | zero =>
    intro u p v hl hp hh hnd hls
    have hun : u = [] := List.eq_nil_of_length_eq_zero (Nat.le_zero.mp hl)
    subst hun
    rw [List.nil_append, collapse_seg p.length p v le_rfl hnd hls]
    exact ⟨[], collapse v, rfl⟩
  | succ n ih =>
    intro u p v hl hp hh hnd hls
    rcases u with _ | ⟨a, u1⟩
    · rw [List.nil_append, collapse_seg p.length p v le_rfl hnd hls]
      exact ⟨[], collapse v, rfl⟩
    · rcases u1 with _ | ⟨b, u2⟩
      · rcases p with _ | ⟨c, p1⟩
        · exact absurd rfl hp
        · have hc : c ≠ ' ' := by simpa [List.headI] using hh
          have hac : ¬ (a = ' ' ∧ c = ' ') := fun hx => hc hx.2
          have hseg := collapse_seg (c :: p1).length (c :: p1) v le_rfl hnd hls
          simp only [List.cons_append, List.singleton_append, List.nil_append] at hseg ⊢
          rw [show collapse (a :: c :: (p1 ++ v)) =
              a :: collapse (c :: (p1 ++ v)) by simp [collapse, hac], hseg]
          exact ⟨[a], collapse v, by simp⟩
      · by_cases hab : a = ' ' ∧ b = ' '
        · have h2 := ih u2 p v (by simp at hl ⊢; omega) hp hh hnd hls
          have e : collapse ((a :: b :: u2) ++ p ++ v) =
              ' ' :: collapse (u2 ++ p ++ v) := by
            simp only [List.cons_append]
            simp [collapse, hab.1, hab.2]
          rw [e]
          exact occurs_cons p _ ' ' h2
        · have h2 := ih (b :: u2) p v (by simp at hl ⊢; omega) hp hh hnd hls
          have e : collapse ((a :: b :: u2) ++ p ++ v) =
              a :: collapse ((b :: u2) ++ p ++ v) := by
            simp only [List.cons_append]
            simp [collapse, hab]
          rw [e]
          exact occurs_cons p _ a h2

theorem occurs_collapse (p l : Str) (hp : p ≠ []) (hh : p.headI ≠ ' ')
    (hnd : noDouble p = true) (hls : lastNotSpaceCh p = true) (h : occursIn p l) :
    occursIn p (collapse l) := by
  obtain ⟨u, v, rfl⟩ := h
  exact collapse_occurs u.length u p v le_rfl hp hh hnd hls

theorem normalizeText_marker (s : Str) (h : occursIn markerPhrase s) :
    normalizeText s = noOutageText := by
  have hne : markerPhrase ≠ [] := by decide
  have hh : isGoSpace markerPhrase.headI = false := by decide
  have hl : isGoSpace markerPhrase.reverse.headI = false := by decide
  have hdash : markerPhrase.headI ≠ '—' := by decide
  have hsp : markerPhrase.headI ≠ ' ' := by decide
  have hnd : noDouble markerPhrase = true := by decide
  have hls : lastNotSpaceCh markerPhrase = true := by decide
  have hmap : markerPhrase.map nbspToSpace = markerPhrase := by decide
  have h1 := occurs_trimSpace markerPhrase s hne hh hl h
  have h2 := occurs_stripDash markerPhrase _ hne hdash h1
  have h3 := occurs_trimSpace markerPhrase _ hne hh hl h2
  have h4 := occurs_map nbspToSpace markerPhrase _ h3
  rw [hmap] at h4
  have h5 := occurs_collapse markerPhrase _ hne hsp hnd hls h4
  have hc := containsS_of_occurs markerPhrase _ h5
  simp only [normalizeText, hc, if_true]

/-- C4: any extracted fragment containing the literal marker phrase meaning
"power is present" normalizes to the fixed "no outage" constant, and the
minutes computed from that normalized text are 0. -/
theorem normalizeText_marker_spec (s : Str) (h : occursIn markerPhrase s) :
    normalizeText s = noOutageText ∧ outageMinutes (normalizeText s) = 0 := by
  have he := normalizeText_marker s h
  exact ⟨he, by rw [he]; decide⟩

/-- Witness for C4 at a concrete fragment containing the marker. -/
theorem normalizeText_marker_spec_w :
    normalizeText w4txt = noOutageText ∧ outageMinutes (normalizeText w4txt) = 0 :=
  normalizeText_marker_spec w4txt ⟨w4u, w4v, by decide⟩
